import Mathlib

/-!
Shallow embedding of `src/parray.h` (BareRose/parray): a dynamic pointer
array with an offset-addressed backing store, usable as array / stack /
queue / sorted list.

Modelling conventions:
- `Val := Nat` models a stored `void*` value; the C `NULL` pointer is `0`.
- `size_t` arithmetic is modelled in `Nat`; the C `return -1` on a
  `size_t`-returning function wraps to `SIZE_MAX = 2^64 - 1`.
- The backing store `data` is a list of slots, one per allocated capacity
  slot (`data.length = capacity` in every reachable state).
- Allocation (`malloc` / `realloc`) is modelled by a boolean oracle
  passed to each operation that may allocate: `true` means the
  allocation succeeds. Freshly allocated slots hold the junk value `0`;
  nothing proved below depends on the junk value of a slot that was
  never written. `realloc` keeps the old contents up to the new size.
- `parrayCapacity` calls `memmove` with a byte count (`parr->length`
  bytes, as in the source, which omits the `sizeof(parr->data[0])`
  factor present in every other copy in the file), so for that one
  operation the buffer is converted to bytes and back, assuming
  8-byte little-endian slots (`sizeof(void*) == 8`).
-/

/-- Width of `size_t` wraparound: the value of `(size_t)-1`. -/
def SIZE_MAX : Nat := 2 ^ 64 - 1

/-- A stored `void*` value; `0` plays the role of `NULL`. -/
abbrev Val := Nat

/-- The `struct parray` of the source: `offset`, `length`, `capacity`
and the backing store (one list entry per allocated slot). -/
structure Parray where
  offset : Nat
  length : Nat
  capacity : Nat
  data : List Val
deriving Repr, DecidableEq

/-- Structural well-formedness: the live region fits in the allocation
and the model list has exactly `capacity` slots. (`0 ≤ offset` is
automatic for `Nat`.) -/
def WF (p : Parray) : Prop :=
  p.offset + p.length ≤ p.capacity ∧ p.data.length = p.capacity

instance (p : Parray) : Decidable (WF p) := by
  unfold WF; infer_instance

/-- The live element sequence: logical index `i` maps to physical slot
`offset + i`, for `i < length`. -/
def liveList (p : Parray) : List Val :=
  (p.data.drop p.offset).take p.length

/-- `parrayNew`: `calloc` of the struct, so all fields zero and a NULL
(`[]`) data block. -/
def parrayNew : Parray :=
  { offset := 0, length := 0, capacity := 0, data := [] }

/-- `parrayLength`. -/
def parrayLength (p : Parray) : Nat := p.length

/-- `parrayGet`: element at logical index `ind`, or NULL (`0`) if OOB. -/
def parrayGet (p : Parray) (ind : Nat) : Val :=
  if ind ≥ p.length then 0 else p.data.getD (p.offset + ind) 0

/-- `parrayGetFirst`: first element, or NULL if empty. -/
def parrayGetFirst (p : Parray) : Val :=
  if p.length = 0 then 0 else p.data.getD p.offset 0

/-- `parrayGetLast`: last element, or NULL if empty. -/
def parrayGetLast (p : Parray) : Val :=
  if p.length = 0 then 0 else p.data.getD (p.offset + p.length - 1) 0

/-- `parraySet`: overwrite logical index `ind`; `-1` if OOB. -/
def parraySet (p : Parray) (ind : Nat) (ele : Val) : Nat × Parray :=
  if ind ≥ p.length then (SIZE_MAX, p)
  else (ind, { p with data := p.data.set (p.offset + ind) ele })

/-- `parrayIndexOf`: first logical index holding `ele`, `-1` if absent. -/
def parrayIndexOf (p : Parray) (ele : Val) : Nat :=
  match (List.range p.length).find? (fun i => p.data.getD (p.offset + i) 0 = ele) with
  | some i => i
  | none => SIZE_MAX

/-- `parrayClear`: reset `offset` and `length`; allocation retained. -/
def parrayClear (p : Parray) : Parray :=
  { p with offset := 0, length := 0 }

/-- `memcpy` of `n` slots from slot index `src` to slot index `0`
inside the same buffer (the offset-reset compaction in `parrayPush` /
`parrayInsert`; the branch guard `offset ≥ length` makes the regions
non-overlapping). -/
def copySlots (d : List Val) (src n : Nat) : List Val :=
  ((d.drop src).take n) ++ d.drop n

/-- `realloc` of the buffer to `n` slots: old contents kept up to `n`,
any fresh slots hold junk (`0`). -/
def reallocData (d : List Val) (n : Nat) : List Val :=
  d.take n ++ List.replicate (n - d.length) 0

/-- The shared growth step of `parrayPush` and `parrayInsert`: when
`offset + length == capacity`, either compact to offset 0 (when
`offset ≥ length`) or double the capacity by `realloc` (which can
fail, yielding `none`). Otherwise the state passes through. -/
def growStep (alloc : Bool) (p : Parray) : Option Parray :=
  if p.offset + p.length = p.capacity then
    if p.offset ≥ p.length then
      some { p with offset := 0, data := copySlots p.data p.offset p.length }
    else if alloc then
      some { p with capacity := p.capacity * 2, data := reallocData p.data (p.capacity * 2) }
    else none
  else some p

/-- `parrayPush`: append `ele`, allocating an initial 8-slot buffer on
first use and growing via `growStep` when full. Returns the index the
element was placed at, or `-1` on allocation failure (on initial
`malloc` failure the source stores the NULL result into `data`). -/
def parrayPush (alloc : Bool) (p : Parray) (ele : Val) : Nat × Parray :=
  match (if p.capacity = 0 then
           (if alloc then
              some { p with capacity := 8, data := List.replicate 8 0 }
            else none)
         else some p) with
  | none => (SIZE_MAX, { p with data := [] })
  | some p1 =>
    match growStep alloc p1 with
    | none => (SIZE_MAX, p1)
    | some p2 =>
      (p2.length,
       { p2 with data := p2.data.set (p2.offset + p2.length) ele, length := p2.length + 1 })

/-- `parrayPop`: remove and return the last element (NULL if empty). -/
def parrayPop (p : Parray) : Val × Parray :=
  if p.length = 0 then (0, p)
  else (p.data.getD (p.offset + p.length - 1) 0, { p with length := p.length - 1 })

/-- `parrayDequeue`: remove and return the first element (NULL if
empty); decrements `length` and increments `offset`. -/
def parrayDequeue (p : Parray) : Val × Parray :=
  if p.length = 0 then (0, p)
  else (p.data.getD p.offset 0, { p with length := p.length - 1, offset := p.offset + 1 })

/-- `memmove` for `parrayInsert`: shift the `n` slots starting at slot
`src` one slot forward (to `src + 1`). -/
def shiftForward (d : List Val) (src n : Nat) : List Val :=
  d.take (src + 1) ++ ((d.drop src).take n) ++ d.drop (src + 1 + n)

/-- `memmove` for `parrayRemove`: shift the `n` slots starting at slot
`dst + 1` one slot backward (to `dst`). -/
def shiftBackward (d : List Val) (dst n : Nat) : List Val :=
  d.take dst ++ ((d.drop (dst + 1)).take n) ++ d.drop (dst + n)

/-- `parrayInsert`: insert `ele` at logical index `ind`, shifting
elements `[ind, length)` forward; rejects `ind ≥ length` (so `insert`
cannot append), and grows via `growStep` when full. -/
def parrayInsert (alloc : Bool) (p : Parray) (ind : Nat) (ele : Val) : Nat × Parray :=
  if ind ≥ p.length then (SIZE_MAX, p)
  else
    match growStep alloc p with
    | none => (SIZE_MAX, p)
    | some p1 =>
      (ind,
       { p1 with
           data := (shiftForward p1.data (p1.offset + ind) (p1.length - ind)).set
             (p1.offset + ind) ele,
           length := p1.length + 1 })

/-- `parrayRemove`: remove and return the element at logical index
`ind`, closing the gap (order preserved); NULL if OOB. -/
def parrayRemove (p : Parray) (ind : Nat) : Val × Parray :=
  if ind ≥ p.length then (0, p)
  else
    (p.data.getD (p.offset + ind) 0,
     { p with
         length := p.length - 1,
         data := shiftBackward p.data (p.offset + ind) (p.length - 1 - ind) })

/-- `parrayDitch`: remove the element at `ind` by overwriting its slot
with the popped last element (order not preserved); NULL if OOB. -/
def parrayDitch (p : Parray) (ind : Nat) : Val × Parray :=
  if ind ≥ p.length then (0, p)
  else
    (p.data.getD (p.offset + ind) 0,
     { p with
         length := p.length - 1,
         data := p.data.set (p.offset + ind) (p.data.getD (p.offset + (p.length - 1)) 0) })

/-- Number of bytes in a slot (`sizeof(void*)` on the 64-bit targets
the source is written for). -/
def PTRBYTES : Nat := 8

/-- Little-endian byte decomposition of one slot value. -/
def slotBytes (v : Val) : List Nat :=
  (List.range PTRBYTES).map (fun k => v / 256 ^ k % 256)

/-- Recompose a little-endian byte list into a slot value. -/
def valOfBytes (bs : List Nat) : Val :=
  bs.foldr (fun b acc => b + 256 * acc) 0

/-- The whole buffer as a byte list. -/
def bytesOfData (d : List Val) : List Nat :=
  (d.map slotBytes).flatten

/-- Reassemble `n` slots from a byte list (8 bytes per slot). -/
def dataOfBytesN : Nat → List Nat → List Val
  | 0, _ => []
  | n + 1, bs => valOfBytes (bs.take PTRBYTES) :: dataOfBytesN n (bs.drop PTRBYTES)

/-- The `memmove` in `parrayCapacity` at byte granularity: copy `len`
BYTES from byte offset `off` to byte offset `0` (the source passes
`parr->length` as the byte count, without the `sizeof` factor). -/
def capMemmoveBytes (bs : List Nat) (off len : Nat) : List Nat :=
  ((bs.drop off).take len) ++ bs.drop len

/-- The compaction step of `parrayCapacity`: when `offset ≠ 0`, move
`length` bytes (sic) of the buffer down to offset 0 and zero `offset`. -/
def capCompact (p : Parray) : Parray :=
  if p.offset = 0 then p
  else
    { p with
        offset := 0,
        data := dataOfBytesN p.capacity
          (capMemmoveBytes (bytesOfData p.data) (p.offset * PTRBYTES) p.length) }

/-- `parrayCapacity`: clamp the target to `length`, compact the offset
to 0 first when nonzero, then `realloc` when the clamped target differs
from the current capacity; `-1` on `realloc` failure (with the
compaction already performed). -/
def parrayCapacity (alloc : Bool) (p : Parray) (cap0 : Nat) : Nat × Parray :=
  let cap := if cap0 < p.length then p.length else cap0
  let p1 := capCompact p
  if cap ≠ p1.capacity then
    if alloc then
      (cap, { p1 with capacity := cap, data := reallocData p1.data cap })
    else (SIZE_MAX, p1)
  else (p1.capacity, p1)

/-- Fuel-driven standard binary search (the C `bsearch` contract, in
its usual halving form): on the list `arr`, maintain `[lo, hi)`; probe
the midpoint, descend left on `cmp < 0`, right on `cmp > 0`, and
return the midpoint index on `0`. `cmp e` models `comp(key, &e)`. -/
def bsearchGo (cmp : Val → Int) (arr : List Val) : Nat → Nat → Nat → Option Nat
  | 0, _, _ => none
  | fuel + 1, lo, hi =>
    if lo < hi then
      let mid := (lo + hi) / 2
      let c := cmp (arr.getD mid 0)
      if c < 0 then bsearchGo cmp arr fuel lo mid
      else if c > 0 then bsearchGo cmp arr fuel (mid + 1) hi
      else some mid
    else none

/-- `bsearch(key, base, nmemb, size, comp)` over the live region:
returns the index (in elements, relative to `base`) of a matching
element, or `none` for NULL. -/
def bsearchLive (cmp : Val → Int) (arr : List Val) : Option Nat :=
  bsearchGo cmp arr (arr.length + 1) 0 arr.length

/-- `parrayFindIndex`: `bsearch` over the live region; the source then
computes `(res - &data[offset]) / sizeof(data[0])` — a pointer
difference already measured in elements, divided by `sizeof(void*)`
again — so a found element index `i` is reported as `i / 8`. -/
def parrayFindIndex (cmp : Val → Int) (p : Parray) : Nat :=
  match bsearchLive cmp (liveList p) with
  | none => SIZE_MAX
  | some i => i / PTRBYTES

/-- `parrayFindElement`: `bsearch` over the live region, dereferencing
the result (NULL, i.e. `0`, when absent). -/
def parrayFindElement (cmp : Val → Int) (p : Parray) : Val :=
  match bsearchLive cmp (liveList p) with
  | none => 0
  | some i => (liveList p).getD i 0

/-- One public mutating call, with its allocation-oracle outcome where
the operation can allocate (the claim C7 operation set). -/
inductive Op where
  | push (alloc : Bool) (ele : Val)
  | pop
  | dequeue
  | insert (alloc : Bool) (ind : Nat) (ele : Val)
  | remove (ind : Nat)
  | ditch (ind : Nat)
  | setAt (ind : Nat) (ele : Val)
  | clear
  | capacity (alloc : Bool) (cap : Nat)
deriving Repr, DecidableEq

/-- Apply one public call to a state (dropping the returned value). -/
def applyOp (p : Parray) : Op → Parray
  | .push a e => (parrayPush a p e).2
  | .pop => (parrayPop p).2
  | .dequeue => (parrayDequeue p).2
  | .insert a i e => (parrayInsert a p i e).2
  | .remove i => (parrayRemove p i).2
  | .ditch i => (parrayDitch p i).2
  | .setAt i e => (parraySet p i e).2
  | .clear => parrayClear p
  | .capacity a c => (parrayCapacity a p c).2

/-- Run a call sequence from a starting state. -/
def runOps (p : Parray) (ops : List Op) : Parray :=
  ops.foldl applyOp p

/-- Push every element of `xs` in order (with a succeeding allocator). -/
def pushAll (p : Parray) (xs : List Val) : Parray :=
  xs.foldl (fun q x => (parrayPush true q x).2) p

/-- Dequeue `n` times, collecting the returned values in call order. -/
def dequeueAll : Nat → Parray → List Val × Parray
  | 0, p => ([], p)
  | n + 1, p =>
    let r1 := parrayDequeue p
    let r2 := dequeueAll n r1.2
    (r1.1 :: r2.1, r2.2)

/-- Pop `n` times, collecting the returned values in call order. -/
def popAll : Nat → Parray → List Val × Parray
  | 0, p => ([], p)
  | n + 1, p =>
    let r1 := parrayPop p
    let r2 := popAll n r1.2
    (r1.1 :: r2.1, r2.2)

/-- A numeric key comparator in the style the search functions expect:
`natKeyCmp k e` models `comp(key, &elem)` returning negative / zero /
positive as the key orders below / equal to / above the element. -/
def natKeyCmp (k : Nat) (e : Val) : Int :=
  if k < e then -1 else if e < k then 1 else 0

/-! ### Basic facts about the abstraction -/

theorem getD_eq_getElem (l : List Val) (i : Nat) (h : i < l.length) :
    l.getD i 0 = l[i] := by
  simp [List.getD_eq_getElem?_getD, List.getElem?_eq_getElem h]

theorem liveList_length (p : Parray) (h : WF p) : (liveList p).length = p.length := by
  obtain ⟨h1, h2⟩ := h
  simp only [liveList, List.length_take, List.length_drop]
  omega

theorem liveList_getElem (p : Parray) (h : WF p) (i : Nat) (hi : i < p.length) :
    (liveList p).getD i 0 = p.data.getD (p.offset + i) 0 := by
  obtain ⟨h1, h2⟩ := h
  rw [getD_eq_getElem _ _ (by rw [liveList_length p ⟨h1, h2⟩]; omega),
      getD_eq_getElem _ _ (by omega)]
  simp [liveList, List.getElem_take, List.getElem_drop]

theorem parrayDequeue_step (p : Parray) (h : WF p) (hl : p.length ≠ 0) :
    (parrayDequeue p).1 = (liveList p).getD 0 0 ∧
    liveList (parrayDequeue p).2 = (liveList p).drop 1 ∧
    WF (parrayDequeue p).2 ∧ (parrayDequeue p).2.length = p.length - 1 := by
  obtain ⟨h1, h2⟩ := h
  have hgl := liveList_getElem p ⟨h1, h2⟩ 0 (by omega)
  simp only [parrayDequeue, if_neg hl]
  refine ⟨?_, ?_, ?_, trivial⟩
  · simpa using hgl.symm
  · simp only [liveList, List.drop_take, List.drop_drop]
  · simp only [WF]
    omega

theorem parrayPop_step (p : Parray) (h : WF p) (hl : p.length ≠ 0) :
    (parrayPop p).1 = (liveList p).getD (p.length - 1) 0 ∧
    liveList (parrayPop p).2 = (liveList p).take (p.length - 1) ∧
    WF (parrayPop p).2 ∧ (parrayPop p).2.length = p.length - 1 := by
  obtain ⟨h1, h2⟩ := h
  have hgl := liveList_getElem p ⟨h1, h2⟩ (p.length - 1) (by omega)
  have he : p.offset + (p.length - 1) = p.offset + p.length - 1 := by omega
  rw [he] at hgl
  simp only [parrayPop, if_neg hl]
  refine ⟨?_, ?_, ?_, trivial⟩
  · simpa using hgl.symm
  · simp only [liveList, List.take_take]
    rw [Nat.min_eq_left (by omega)]
  · simp only [WF]
    omega

/-! ### Slice helper lemmas -/

theorem drop_set_of_le (d : List Val) (i j : Nat) (v : Val) (h : j ≤ i) :
    (d.set i v).drop j = (d.drop j).set (i - j) v := by
  apply List.ext_getElem
  · simp
  · intro k h1 h2
    simp only [List.getElem_drop, List.getElem_set]
    split_ifs <;> first | rfl | (exfalso; omega)

theorem copySlots_length (d : List Val) (o l : Nat) (h : o + l ≤ d.length) :
    (copySlots d o l).length = d.length := by
  simp only [copySlots, List.length_append, List.length_take, List.length_drop]
  omega

theorem copySlots_take (d : List Val) (o l : Nat) (h : o + l ≤ d.length) :
    (copySlots d o l).take l = (d.drop o).take l := by
  apply List.take_left'
  simp only [List.length_take, List.length_drop]
  omega

theorem reallocData_length (d : List Val) (n : Nat) : (reallocData d n).length = n := by
  simp only [reallocData, List.length_append, List.length_take, List.length_replicate]
  omega

theorem reallocData_grow (d : List Val) (n : Nat) (h : d.length ≤ n) :
    reallocData d n = d ++ List.replicate (n - d.length) 0 := by
  simp only [reallocData, List.take_of_length_le h]

/-! ### Growth step -/

theorem growStep_true_spec (p : Parray) (h : WF p) (hc : p.capacity ≠ 0) :
    ∃ q, growStep true p = some q ∧ q.data.length = q.capacity ∧
      q.offset + q.length < q.capacity ∧ q.length = p.length ∧
      liveList q = liveList p := by
  obtain ⟨h1, h2⟩ := h
  unfold growStep
  by_cases hfull : p.offset + p.length = p.capacity
  · by_cases hol : p.offset ≥ p.length
    · rw [if_pos hfull, if_pos hol]
      refine ⟨_, rfl, ?_, ?_, rfl, ?_⟩
      · show (copySlots p.data p.offset p.length).length = p.capacity
        rw [copySlots_length p.data p.offset p.length (by omega)]
        exact h2
      · show 0 + p.length < p.capacity
        omega
      · dsimp only [liveList]
        rw [List.drop_zero, copySlots_take p.data p.offset p.length (by omega)]
    · rw [if_pos hfull, if_neg hol, if_pos rfl]
      refine ⟨_, rfl, ?_, ?_, rfl, ?_⟩
      · show (reallocData p.data (p.capacity * 2)).length = p.capacity * 2
        rw [reallocData_length]
      · show p.offset + p.length < p.capacity * 2
        omega
      · dsimp only [liveList]
        rw [reallocData_grow p.data (p.capacity * 2) (by omega),
            List.drop_append_eq_append_drop,
            show p.offset - p.data.length = 0 from by omega, List.drop_zero,
            show (p.data.drop p.offset).take p.length = p.data.drop p.offset from
              List.take_of_length_le (by simp only [List.length_drop]; omega)]
        apply List.take_left'
        simp only [List.length_drop]
        omega
  · rw [if_neg hfull]
    exact ⟨p, rfl, h2, by omega, rfl, rfl⟩

theorem appendWrite_spec (q : Parray) (e : Val) (h2 : q.data.length = q.capacity)
    (hlt : q.offset + q.length < q.capacity) :
    WF { q with data := q.data.set (q.offset + q.length) e, length := q.length + 1 } ∧
    liveList { q with data := q.data.set (q.offset + q.length) e, length := q.length + 1 }
      = liveList q ++ [e] := by
  constructor
  · refine ⟨?_, ?_⟩
    · show q.offset + (q.length + 1) ≤ q.capacity
      omega
    · show (q.data.set (q.offset + q.length) e).length = q.capacity
      rw [List.length_set]
      exact h2
  · dsimp only [liveList]
    rw [drop_set_of_le q.data (q.offset + q.length) q.offset e (by omega),
        show q.offset + q.length - q.offset = q.length from by omega,
        List.set_eq_take_append_cons_drop,
        if_pos (by simp only [List.length_drop]; omega),
        List.take_append_eq_append_take,
        show ((q.data.drop q.offset).take q.length).length = q.length from by
          simp only [List.length_take, List.length_drop]; omega,
        show q.length + 1 - q.length = 1 from by omega,
        List.take_succ_cons, List.take_zero, List.take_take,
        show min (q.length + 1) q.length = q.length from by omega]

/-! ### Push specification -/

theorem parrayPush_true_spec (p : Parray) (e : Val) (h : WF p) :
    (parrayPush true p e).1 = p.length ∧ WF (parrayPush true p e).2 ∧
    (parrayPush true p e).2.length = p.length + 1 ∧
    liveList (parrayPush true p e).2 = liveList p ++ [e] := by
  obtain ⟨h1, h2⟩ := h
  by_cases hc : p.capacity = 0
  · have ho : p.offset = 0 := by omega
    have hl : p.length = 0 := by omega
    have hd : p.data = [] := List.length_eq_zero.mp (by omega)
    simp [parrayPush, growStep, liveList, WF, hc, ho, hl, hd, List.replicate_succ]
  · obtain ⟨q, hq, hqd, hqlt, hqlen, hqlive⟩ := growStep_true_spec p ⟨h1, h2⟩ hc
    obtain ⟨hw1, hw2⟩ := appendWrite_spec q e hqd hqlt
    simp only [parrayPush, if_neg hc, hq]
    exact ⟨hqlen, hw1, by simp [hqlen], by rw [hw2, hqlive]⟩

/-! ### Insert specification -/

theorem getElem_idx_eq (d : List Val) (i j : Nat) (hi : i < d.length) (hj : j < d.length)
    (h : i = j) : d[i] = d[j] := by
  subst h
  rfl

theorem shiftForward_length (d : List Val) (src n : Nat) (h : src + 1 + n ≤ d.length) :
    (shiftForward d src n).length = d.length := by
  simp only [shiftForward, List.length_append, List.length_take, List.length_drop]
  omega

theorem insertWrite_live (q : Parray) (ind : Nat) (e : Val)
    (hqd : q.data.length = q.capacity) (hqlt : q.offset + q.length < q.capacity)
    (hi : ind < q.length) :
    liveList { q with
        data := (shiftForward q.data (q.offset + ind) (q.length - ind)).set
          (q.offset + ind) e,
        length := q.length + 1 }
      = (liveList q).take ind ++ e :: (liveList q).drop ind := by
  have hsl : (shiftForward q.data (q.offset + ind) (q.length - ind)).length = q.data.length :=
    shiftForward_length q.data (q.offset + ind) (q.length - ind) (by omega)
  apply List.ext_getElem
  · simp only [liveList, List.length_take, List.length_drop, List.length_set, hsl,
      List.length_append, List.length_cons]
    omega
  · intro j hj1 hj2
    simp only [liveList, List.length_take, List.length_drop, List.length_set, hsl,
      List.length_append, List.length_cons] at hj1 hj2
    simp only [liveList, List.getElem_take, List.getElem_drop, List.getElem_set,
      shiftForward, List.getElem_append, List.length_take, List.length_drop,
      List.length_append, List.getElem_cons, List.length_cons]
    split_ifs <;>
      first
        | rfl
        | (exfalso; omega)
        | (exact getElem_idx_eq _ _ _ (by omega) (by omega) (by omega))

theorem parrayInsert_true_spec (p : Parray) (ind : Nat) (e : Val) (h : WF p)
    (hi : ind < p.length) :
    (parrayInsert true p ind e).1 = ind ∧ WF (parrayInsert true p ind e).2 ∧
    (parrayInsert true p ind e).2.length = p.length + 1 ∧
    liveList (parrayInsert true p ind e).2
      = (liveList p).take ind ++ e :: (liveList p).drop ind := by
  obtain ⟨h1, h2⟩ := h
  have hc : p.capacity ≠ 0 := by omega
  obtain ⟨q, hq, hqd, hqlt, hqlen, hqlive⟩ := growStep_true_spec p ⟨h1, h2⟩ hc
  have hiq : ind < q.length := by omega
  simp only [parrayInsert, if_neg (by omega : ¬ ind ≥ p.length), hq]
  refine ⟨trivial, ?_, ?_, ?_⟩
  · refine ⟨?_, ?_⟩
    · show q.offset + (q.length + 1) ≤ q.capacity
      omega
    · show ((shiftForward q.data (q.offset + ind) (q.length - ind)).set
        (q.offset + ind) e).length = q.capacity
      rw [List.length_set, shiftForward_length q.data (q.offset + ind) (q.length - ind) (by omega)]
      exact hqd
  · show q.length + 1 = p.length + 1
    omega
  · rw [insertWrite_live q ind e hqd hqlt hiq, hqlive]

/-! ### Well-formedness preservation -/

theorem growStep_some_spec (a : Bool) (p : Parray) (h : WF p) (hc : p.capacity ≠ 0)
    (q : Parray) (hq : growStep a p = some q) :
    q.data.length = q.capacity ∧ q.offset + q.length < q.capacity ∧
    q.length = p.length ∧ liveList q = liveList p := by
  obtain ⟨h1, h2⟩ := h
  unfold growStep at hq
  by_cases hfull : p.offset + p.length = p.capacity
  · by_cases hol : p.offset ≥ p.length
    · rw [if_pos hfull, if_pos hol, Option.some_inj] at hq
      subst hq
      refine ⟨?_, ?_, rfl, ?_⟩
      · show (copySlots p.data p.offset p.length).length = p.capacity
        rw [copySlots_length p.data p.offset p.length (by omega)]
        exact h2
      · show 0 + p.length < p.capacity
        omega
      · dsimp only [liveList]
        rw [List.drop_zero, copySlots_take p.data p.offset p.length (by omega)]
    · rw [if_pos hfull, if_neg hol] at hq
      cases a with
      | false => simp at hq
      | true =>
        rw [if_pos rfl, Option.some_inj] at hq
        subst hq
        refine ⟨?_, ?_, rfl, ?_⟩
        · show (reallocData p.data (p.capacity * 2)).length = p.capacity * 2
          rw [reallocData_length]
        · show p.offset + p.length < p.capacity * 2
          omega
        · dsimp only [liveList]
          rw [reallocData_grow p.data (p.capacity * 2) (by omega),
              List.drop_append_eq_append_drop,
              show p.offset - p.data.length = 0 from by omega, List.drop_zero,
              show (p.data.drop p.offset).take p.length = p.data.drop p.offset from
                List.take_of_length_le (by simp only [List.length_drop]; omega)]
          apply List.take_left'
          simp only [List.length_drop]
          omega
  · rw [if_neg hfull, Option.some_inj] at hq
    subst hq
    exact ⟨h2, by omega, rfl, rfl⟩

theorem WF_push (a : Bool) (p : Parray) (e : Val) (h : WF p) : WF (parrayPush a p e).2 := by
  obtain ⟨h1, h2⟩ := h
  by_cases hc : p.capacity = 0
  · cases a with
    | false =>
      have he : parrayPush false p e = (SIZE_MAX, { p with data := [] }) := by
        simp [parrayPush, hc]
      rw [he]
      refine ⟨h1, ?_⟩
      show ([] : List Val).length = p.capacity
      simp [hc]
    | true =>
      have ho : p.offset = 0 := by omega
      have hl : p.length = 0 := by omega
      simp [parrayPush, growStep, WF, hc, ho, hl]
  · simp only [parrayPush, if_neg hc]
    cases hg : growStep a p with
    | none => exact ⟨h1, h2⟩
    | some q =>
      obtain ⟨hqd, hqlt, hqlen, hqlive⟩ := growStep_some_spec a p ⟨h1, h2⟩ hc q hg
      refine ⟨?_, ?_⟩
      · show q.offset + (q.length + 1) ≤ q.capacity
        omega
      · show (q.data.set (q.offset + q.length) e).length = q.capacity
        rw [List.length_set]
        exact hqd

theorem WF_insert (a : Bool) (p : Parray) (ind : Nat) (e : Val) (h : WF p) :
    WF (parrayInsert a p ind e).2 := by
  obtain ⟨h1, h2⟩ := h
  by_cases hi : ind ≥ p.length
  · simp only [parrayInsert, if_pos hi]
    exact ⟨h1, h2⟩
  · have hc : p.capacity ≠ 0 := by omega
    simp only [parrayInsert, if_neg hi]
    cases hg : growStep a p with
    | none => exact ⟨h1, h2⟩
    | some q =>
      obtain ⟨hqd, hqlt, hqlen, hqlive⟩ := growStep_some_spec a p ⟨h1, h2⟩ hc q hg
      refine ⟨?_, ?_⟩
      · show q.offset + (q.length + 1) ≤ q.capacity
        omega
      · show ((shiftForward q.data (q.offset + ind) (q.length - ind)).set
          (q.offset + ind) e).length = q.capacity
        rw [List.length_set,
            shiftForward_length q.data (q.offset + ind) (q.length - ind) (by omega)]
        exact hqd

theorem shiftBackward_length (d : List Val) (dst n : Nat) (h : dst + 1 + n ≤ d.length) :
    (shiftBackward d dst n).length = d.length := by
  simp only [shiftBackward, List.length_append, List.length_take, List.length_drop]
  omega

theorem WF_remove (p : Parray) (ind : Nat) (h : WF p) : WF (parrayRemove p ind).2 := by
  obtain ⟨h1, h2⟩ := h
  by_cases hi : ind ≥ p.length
  · simp only [parrayRemove, if_pos hi]
    exact ⟨h1, h2⟩
  · simp only [parrayRemove, if_neg hi]
    refine ⟨?_, ?_⟩
    · show p.offset + (p.length - 1) ≤ p.capacity
      omega
    · show (shiftBackward p.data (p.offset + ind) (p.length - 1 - ind)).length = p.capacity
      rw [shiftBackward_length p.data (p.offset + ind) (p.length - 1 - ind) (by omega)]
      exact h2

theorem WF_ditch (p : Parray) (ind : Nat) (h : WF p) : WF (parrayDitch p ind).2 := by
  obtain ⟨h1, h2⟩ := h
  by_cases hi : ind ≥ p.length
  · simp only [parrayDitch, if_pos hi]
    exact ⟨h1, h2⟩
  · simp only [parrayDitch, if_neg hi]
    exact ⟨by show p.offset + (p.length - 1) ≤ p.capacity; omega,
           by show (p.data.set _ _).length = p.capacity; rw [List.length_set]; exact h2⟩

theorem WF_set (p : Parray) (ind : Nat) (e : Val) (h : WF p) : WF (parraySet p ind e).2 := by
  obtain ⟨h1, h2⟩ := h
  by_cases hi : ind ≥ p.length
  · simp only [parraySet, if_pos hi]
    exact ⟨h1, h2⟩
  · simp only [parraySet, if_neg hi]
    exact ⟨h1, by show (p.data.set _ _).length = p.capacity; rw [List.length_set]; exact h2⟩

theorem WF_clear (p : Parray) (h : WF p) : WF (parrayClear p) := by
  obtain ⟨h1, h2⟩ := h
  exact ⟨by show 0 + 0 ≤ p.capacity; omega, h2⟩

theorem WF_pop (p : Parray) (h : WF p) : WF (parrayPop p).2 := by
  obtain ⟨h1, h2⟩ := h
  by_cases hl : p.length = 0
  · simp only [parrayPop, if_pos hl]
    exact ⟨h1, h2⟩
  · simp only [parrayPop, if_neg hl]
    exact ⟨by show p.offset + (p.length - 1) ≤ p.capacity; omega, h2⟩

theorem WF_dequeue (p : Parray) (h : WF p) : WF (parrayDequeue p).2 := by
  obtain ⟨h1, h2⟩ := h
  by_cases hl : p.length = 0
  · simp only [parrayDequeue, if_pos hl]
    exact ⟨h1, h2⟩
  · simp only [parrayDequeue, if_neg hl]
    exact ⟨by show p.offset + 1 + (p.length - 1) ≤ p.capacity; omega, h2⟩

theorem dataOfBytesN_length (n : Nat) (bs : List Nat) : (dataOfBytesN n bs).length = n := by
  induction n generalizing bs with
  | zero => rfl
  | succ m ih => simp [dataOfBytesN, ih]

theorem capCompact_fields (p : Parray) :
    (capCompact p).offset = 0 ∧ (capCompact p).length = p.length ∧
    (capCompact p).capacity = p.capacity ∧
    (capCompact p).data.length = p.capacity ∨ capCompact p = p := by
  by_cases ho : p.offset = 0
  · right
    simp [capCompact, ho]
  · left
    simp [capCompact, ho, dataOfBytesN_length]

theorem capCompact_offset (p : Parray) : (capCompact p).offset = 0 := by
  by_cases ho : p.offset = 0
  · simp [capCompact, ho]
  · simp [capCompact, ho]

theorem capCompact_length (p : Parray) : (capCompact p).length = p.length := by
  by_cases ho : p.offset = 0
  · simp [capCompact, ho]
  · simp [capCompact, ho]

theorem WF_capacity (a : Bool) (p : Parray) (c : Nat) (h : WF p) :
    WF (parrayCapacity a p c).2 := by
  obtain ⟨h1, h2⟩ := h
  have ho0 := capCompact_offset p
  have hol := capCompact_length p
  have hp1 : (capCompact p).offset + (capCompact p).length ≤ (capCompact p).capacity ∧
      (capCompact p).data.length = (capCompact p).capacity := by
    by_cases ho : p.offset = 0
    · simp only [capCompact, if_pos ho]
      exact ⟨h1, h2⟩
    · simp only [capCompact, if_neg ho]
      refine ⟨?_, ?_⟩
      · show 0 + p.length ≤ p.capacity
        omega
      · show (dataOfBytesN p.capacity _).length = p.capacity
        rw [dataOfBytesN_length]
  obtain ⟨hp1a, hp1b⟩ := hp1
  simp only [parrayCapacity]
  by_cases hcap : (if c < p.length then p.length else c) ≠ (capCompact p).capacity
  · rw [if_pos hcap]
    cases a with
    | false => exact ⟨hp1a, hp1b⟩
    | true =>
      rw [if_pos rfl]
      refine ⟨?_, ?_⟩
      · show (capCompact p).offset + (capCompact p).length ≤
          (if c < p.length then p.length else c)
        rw [ho0, hol]
        split_ifs <;> omega
      · show (reallocData (capCompact p).data _).length = _
        rw [reallocData_length]
  · rw [if_neg hcap]
    exact ⟨hp1a, hp1b⟩

theorem WF_applyOp (p : Parray) (op : Op) (h : WF p) : WF (applyOp p op) := by
  cases op with
  | push a e => exact WF_push a p e h
  | pop => exact WF_pop p h
  | dequeue => exact WF_dequeue p h
  | insert a i e => exact WF_insert a p i e h
  | remove i => exact WF_remove p i h
  | ditch i => exact WF_ditch p i h
  | setAt i e => exact WF_set p i e h
  | clear => exact WF_clear p h
  | capacity a c => exact WF_capacity a p c h

theorem WF_runOps (p : Parray) (ops : List Op) (h : WF p) : WF (runOps p ops) := by
  induction ops generalizing p with
  | nil => exact h
  | cons op rest ih => exact ih (applyOp p op) (WF_applyOp p op h)

/-! ### Sequence abstractions: pushAll / dequeueAll / popAll -/

theorem pushAll_spec (xs : List Val) (p : Parray) (h : WF p) :
    WF (pushAll p xs) ∧ liveList (pushAll p xs) = liveList p ++ xs ∧
    (pushAll p xs).length = p.length + xs.length := by
  induction xs generalizing p with
  | nil => simpa [pushAll] using h
  | cons x rest ih =>
    obtain ⟨w1, w2, w3, w4⟩ := parrayPush_true_spec p x h
    have hstep : pushAll p (x :: rest) = pushAll (parrayPush true p x).2 rest := rfl
    obtain ⟨i1, i2, i3⟩ := ih (parrayPush true p x).2 w2
    rw [hstep]
    refine ⟨i1, ?_, ?_⟩
    · rw [i2, w4, List.append_assoc]
      rfl
    · rw [i3, w3]
      simp [List.length_cons]
      omega

theorem cons_head_drop (l : List Val) (h : l ≠ []) : l = l.getD 0 0 :: l.drop 1 := by
  cases l with
  | nil => exact absurd rfl h
  | cons a t => rfl

theorem dequeueAll_spec (n : Nat) (p : Parray) (h : WF p) (hn : p.length = n) :
    (dequeueAll n p).1 = liveList p ∧ (dequeueAll n p).2.length = 0 := by
  induction n generalizing p with
  | zero =>
    have : liveList p = [] := by
      have := liveList_length p h
      rw [hn] at this
      exact List.length_eq_zero.mp this
    simp [dequeueAll, this, hn]
  | succ m ih =>
    obtain ⟨d1, d2, d3, d4⟩ := parrayDequeue_step p h (by omega)
    obtain ⟨i1, i2⟩ := ih (parrayDequeue p).2 d3 (by omega)
    have hne : liveList p ≠ [] := by
      intro hcon
      have := liveList_length p h
      rw [hcon, hn] at this
      simp at this
    refine ⟨?_, i2⟩
    show (parrayDequeue p).1 :: (dequeueAll m (parrayDequeue p).2).1 = liveList p
    rw [i1, d1, d2]
    exact (cons_head_drop (liveList p) hne).symm

theorem take_reverse_getD (l : List Val) (m : Nat) (h : l.length = m + 1) :
    l.reverse = l.getD m 0 :: (l.take m).reverse := by
  have h1 : l.take (m + 1) = l := List.take_of_length_le (by omega)
  have h3 : l[m]? = some (l.getD m 0) := by
    rw [getD_eq_getElem l m (by omega)]
    exact List.getElem?_eq_getElem (by omega)
  have key : l = l.take m ++ [l.getD m 0] := by
    have h2 : l.take (m + 1) = l.take m ++ l[m]?.toList := List.take_succ
    rw [h1, h3] at h2
    simpa using h2
  have hrev := congrArg List.reverse key
  rw [hrev]
  simp

theorem popAll_spec (n : Nat) (p : Parray) (h : WF p) (hn : p.length = n) :
    (popAll n p).1 = (liveList p).reverse ∧ (popAll n p).2.length = 0 := by
  induction n generalizing p with
  | zero =>
    have : liveList p = [] := by
      have := liveList_length p h
      rw [hn] at this
      exact List.length_eq_zero.mp this
    simp [popAll, this, hn]
  | succ m ih =>
    obtain ⟨d1, d2, d3, d4⟩ := parrayPop_step p h (by omega)
    obtain ⟨i1, i2⟩ := ih (parrayPop p).2 d3 (by omega)
    refine ⟨?_, i2⟩
    show (parrayPop p).1 :: (popAll m (parrayPop p).2).1 = (liveList p).reverse
    rw [i1, d1, d2, hn]
    have hll : (liveList p).length = m + 1 := by
      rw [liveList_length p h, hn]
    rw [(take_reverse_getD (liveList p) m hll)]
    simp [hn]

/-! ### Field-level characterization of the growth branches -/

theorem push_eq_notfull (p : Parray) (e : Val) (hc : p.capacity ≠ 0)
    (hfull : p.offset + p.length ≠ p.capacity) :
    parrayPush true p e
      = (p.length,
         { p with data := p.data.set (p.offset + p.length) e, length := p.length + 1 }) := by
  simp only [parrayPush, if_neg hc, growStep, if_neg hfull]

theorem push_eq_compact (p : Parray) (e : Val) (hc : p.capacity ≠ 0)
    (hfull : p.offset + p.length = p.capacity) (hol : p.offset ≥ p.length) :
    parrayPush true p e
      = (p.length,
         { offset := 0, length := p.length + 1, capacity := p.capacity,
           data := (copySlots p.data p.offset p.length).set (0 + p.length) e }) := by
  simp only [parrayPush, if_neg hc, growStep, if_pos hfull, if_pos hol]

theorem push_eq_realloc (p : Parray) (e : Val) (hc : p.capacity ≠ 0)
    (hfull : p.offset + p.length = p.capacity) (hol : ¬ p.offset ≥ p.length) :
    parrayPush true p e
      = (p.length,
         { offset := p.offset, length := p.length + 1, capacity := p.capacity * 2,
           data := (reallocData p.data (p.capacity * 2)).set (p.offset + p.length) e }) := by
  simp only [parrayPush, if_neg hc, growStep, if_pos hfull, if_neg hol, if_true]

theorem insert_eq_notfull (p : Parray) (ind : Nat) (e : Val) (hi : ind < p.length)
    (hfull : p.offset + p.length ≠ p.capacity) :
    parrayInsert true p ind e
      = (ind,
         { p with
             data := (shiftForward p.data (p.offset + ind) (p.length - ind)).set
               (p.offset + ind) e,
             length := p.length + 1 }) := by
  simp only [parrayInsert, if_neg (by omega : ¬ ind ≥ p.length), growStep, if_neg hfull]

theorem insert_eq_compact (p : Parray) (ind : Nat) (e : Val) (hi : ind < p.length)
    (hfull : p.offset + p.length = p.capacity) (hol : p.offset ≥ p.length) :
    (parrayInsert true p ind e).2.offset = 0 ∧
    (parrayInsert true p ind e).2.capacity = p.capacity := by
  simp only [parrayInsert, if_neg (by omega : ¬ ind ≥ p.length), growStep, if_pos hfull,
    if_pos hol]
  exact ⟨by first | rfl | trivial, by first | rfl | trivial⟩

theorem insert_eq_realloc (p : Parray) (ind : Nat) (e : Val) (hi : ind < p.length)
    (hfull : p.offset + p.length = p.capacity) (hol : ¬ p.offset ≥ p.length) :
    (parrayInsert true p ind e).2.offset = p.offset ∧
    (parrayInsert true p ind e).2.capacity = p.capacity * 2 := by
  simp only [parrayInsert, if_neg (by omega : ¬ ind ≥ p.length), growStep, if_pos hfull,
    if_neg hol, if_true]
  exact ⟨by first | rfl | trivial, by first | rfl | trivial⟩

/-! ### Claim theorems -/

/-- C10: a parray returned by `parrayNew` starts with `offset = 0`,
`length = 0`, `capacity = 0` and a NULL data pointer, and the first
successful `parrayPush` on it allocates a backing store of exactly 8
slots, setting `capacity` to 8 (the element lands at index 0). -/
theorem C10_new_and_first_push :
    parrayNew.offset = 0 ∧ parrayNew.length = 0 ∧ parrayNew.capacity = 0 ∧
    parrayNew.data = [] ∧
    ∀ e : Val, (parrayPush true parrayNew e).1 = 0 ∧
      (parrayPush true parrayNew e).2.capacity = 8 ∧
      (parrayPush true parrayNew e).2.data.length = 8 ∧
      liveList (parrayPush true parrayNew e).2 = [e] := by
  refine ⟨rfl, rfl, rfl, rfl, fun e => ⟨rfl, rfl, rfl, rfl⟩⟩

/-- C7: every public operation preserves the structural invariant
`0 ≤ offset` and `offset + length ≤ capacity`: starting from a freshly
created parray, any sequence of push / pop / dequeue / insert / remove
/ ditch / set / clear / capacity calls (with arbitrary allocation
outcomes) keeps the invariant. -/
theorem C7_invariant_preserved (ops : List Op) :
    0 ≤ (runOps parrayNew ops).offset ∧
    (runOps parrayNew ops).offset + (runOps parrayNew ops).length
      ≤ (runOps parrayNew ops).capacity :=
  ⟨Nat.zero_le _, (WF_runOps parrayNew ops (by decide)).1⟩

/-- C6: after pushing the elements of `xs` in order onto an initially
empty parray, `xs.length` pops return exactly the reverse insertion
order (LIFO). -/
theorem C6_lifo (xs : List Val) :
    (popAll xs.length (pushAll parrayNew xs)).1 = xs.reverse := by
  obtain ⟨w1, w2, w3⟩ := pushAll_spec xs parrayNew (by decide)
  have hlen : (pushAll parrayNew xs).length = xs.length := by
    rw [w3]
    simp [parrayNew]
  have hpop := (popAll_spec xs.length (pushAll parrayNew xs) w1 hlen).1
  rw [hpop, w2]
  simp [liveList, parrayNew]

/-- C5: dequeues return pushed elements in exact insertion order
(FIFO). Stated from an arbitrary well-formed starting state (so that
the prior live elements come out first and the fresh pushes after, in
order), which covers interleavings that have already driven `offset`
up to any position — including ones where the subsequent pushes take
the compaction branch; the initially-empty claim is the instance
`p = parrayNew`. -/
theorem C5_fifo (p : Parray) (h : WF p) (xs : List Val) :
    (dequeueAll (p.length + xs.length) (pushAll p xs)).1 = liveList p ++ xs := by
  obtain ⟨w1, w2, w3⟩ := pushAll_spec xs p h
  have := (dequeueAll_spec (p.length + xs.length) (pushAll p xs) w1 (by rw [w3])).1
  rw [this, w2]

/-- Witness for C5: a state with `offset = 2, length = 2, capacity = 4`
whose push takes the compaction branch. -/
theorem C5_fifo_witness :
    WF ⟨2, 2, 4, [7, 8, 9, 10]⟩ ∧
    (dequeueAll ((⟨2, 2, 4, [7, 8, 9, 10]⟩ : Parray).length + [11].length)
        (pushAll ⟨2, 2, 4, [7, 8, 9, 10]⟩ [11])).1
      = liveList ⟨2, 2, 4, [7, 8, 9, 10]⟩ ++ [11] :=
  ⟨by decide, C5_fifo ⟨2, 2, 4, [7, 8, 9, 10]⟩ (by decide) [11]⟩

/-- C3: for a parray with nonzero capacity, a growing mutation (push,
or insert with a valid index) performs a growth action — touching
`offset`, `capacity` or the placement of the existing allocation —
only when `offset + length = capacity`; then, if `offset ≥ length` it
copies the `length` live slots to physical offset 0 and zeroes
`offset` without changing `capacity`, otherwise it doubles `capacity`
by reallocation. In all branches the live sequence is preserved with
the new element at its stated logical position. -/
theorem C3_growth_branches (p : Parray) (e : Val) (ind : Nat) (h : WF p)
    (hc : p.capacity ≠ 0) :
    ((parrayPush true p e).1 = p.length ∧
     liveList (parrayPush true p e).2 = liveList p ++ [e] ∧
     (p.offset + p.length ≠ p.capacity →
       (parrayPush true p e).2.offset = p.offset ∧
       (parrayPush true p e).2.capacity = p.capacity ∧
       (parrayPush true p e).2.data = p.data.set (p.offset + p.length) e) ∧
     (p.offset + p.length = p.capacity →
       (p.offset ≥ p.length →
         (parrayPush true p e).2.offset = 0 ∧
         (parrayPush true p e).2.capacity = p.capacity ∧
         (parrayPush true p e).2.data
           = (copySlots p.data p.offset p.length).set (0 + p.length) e) ∧
       (p.offset < p.length →
         (parrayPush true p e).2.offset = p.offset ∧
         (parrayPush true p e).2.capacity = p.capacity * 2))) ∧
    (ind < p.length →
      ((parrayInsert true p ind e).1 = ind ∧
       liveList (parrayInsert true p ind e).2
         = (liveList p).take ind ++ e :: (liveList p).drop ind ∧
       (p.offset + p.length ≠ p.capacity →
         (parrayInsert true p ind e).2.offset = p.offset ∧
         (parrayInsert true p ind e).2.capacity = p.capacity) ∧
       (p.offset + p.length = p.capacity →
         (p.offset ≥ p.length →
           (parrayInsert true p ind e).2.offset = 0 ∧
           (parrayInsert true p ind e).2.capacity = p.capacity) ∧
         (p.offset < p.length →
           (parrayInsert true p ind e).2.offset = p.offset ∧
           (parrayInsert true p ind e).2.capacity = p.capacity * 2)))) := by
  obtain ⟨hp1, hp2, hp3, hp4⟩ := parrayPush_true_spec p e h
  refine ⟨⟨hp1, hp4, ?_, ?_⟩, ?_⟩
  · intro hfull
    rw [push_eq_notfull p e hc hfull]
    exact ⟨rfl, rfl, rfl⟩
  · intro hfull
    constructor
    · intro hol
      rw [push_eq_compact p e hc hfull hol]
      exact ⟨rfl, rfl, rfl⟩
    · intro hol
      rw [push_eq_realloc p e hc hfull (by omega)]
      exact ⟨rfl, rfl⟩
  · intro hi
    obtain ⟨hi1, hi2, hi3, hi4⟩ := parrayInsert_true_spec p ind e h hi
    refine ⟨hi1, hi4, ?_, ?_⟩
    · intro hfull
      rw [insert_eq_notfull p ind e hi hfull]
      exact ⟨rfl, rfl⟩
    · intro hfull
      exact ⟨fun hol => insert_eq_compact p ind e hi hfull hol,
             fun hol => insert_eq_realloc p ind e hi hfull (by omega)⟩

/-- Witness for C3 at a concrete well-formed state with nonzero
capacity. -/
theorem C3_growth_branches_witness :
    WF ⟨0, 1, 2, [5, 0]⟩ ∧ ((⟨0, 1, 2, [5, 0]⟩ : Parray).capacity ≠ 0) ∧
    (parrayPush true ⟨0, 1, 2, [5, 0]⟩ 9).1 = 1 ∧
    liveList (parrayPush true ⟨0, 1, 2, [5, 0]⟩ 9).2 = [5, 9] := by
  have H := C3_growth_branches ⟨0, 1, 2, [5, 0]⟩ 9 0 (by decide) (by decide)
  exact ⟨by decide, by decide, H.1.1, H.1.2.1.trans (by decide)⟩

/-- C9: `parrayInsert` fails with `-1` and an unchanged state exactly
when the index is outside `[0, length)` (given that allocation
succeeds); in particular `ind = length` is rejected rather than
treated as an append, so inserting into an empty parray always fails.
With a valid index, elements from `ind` on shift one position forward,
the element lands at logical index `ind`, `length` grows by one and
`ind` is returned. -/
theorem C9_insert_bounds (p : Parray) (ind : Nat) (e : Val) (h : WF p)
    (hb : p.length < SIZE_MAX) :
    ((parrayInsert true p ind e).1 = SIZE_MAX ↔ p.length ≤ ind) ∧
    (∀ a : Bool, p.length ≤ ind → parrayInsert a p ind e = (SIZE_MAX, p)) ∧
    (p.length = 0 → ∀ a : Bool, parrayInsert a p ind e = (SIZE_MAX, p)) ∧
    (ind < p.length →
      (parrayInsert true p ind e).1 = ind ∧
      (parrayInsert true p ind e).2.length = p.length + 1 ∧
      liveList (parrayInsert true p ind e).2
        = (liveList p).take ind ++ e :: (liveList p).drop ind) := by
  refine ⟨⟨?_, ?_⟩, ?_, ?_, ?_⟩
  · intro hmax
    by_contra hlt
    obtain ⟨i1, _, _, _⟩ := parrayInsert_true_spec p ind e h (by omega)
    rw [i1] at hmax
    omega
  · intro hge
    simp [parrayInsert, if_pos (by omega : ind ≥ p.length)]
  · intro a hge
    simp [parrayInsert, if_pos (by omega : ind ≥ p.length)]
  · intro h0 a
    simp [parrayInsert, if_pos (by omega : ind ≥ p.length)]
  · intro hi
    obtain ⟨i1, i2, i3, i4⟩ := parrayInsert_true_spec p ind e h hi
    exact ⟨i1, i3, i4⟩

/-- Witness for C9 at a one-element parray, exercising both the
rejected append (`ind = length = 1` fails) and the valid insert at
index 0. -/
theorem C9_insert_bounds_witness :
    WF ⟨0, 1, 2, [5, 0]⟩ ∧ ((⟨0, 1, 2, [5, 0]⟩ : Parray).length < SIZE_MAX) ∧
    parrayInsert true ⟨0, 1, 2, [5, 0]⟩ 1 9 = (SIZE_MAX, ⟨0, 1, 2, [5, 0]⟩) ∧
    (parrayInsert true ⟨0, 1, 2, [5, 0]⟩ 0 9).1 = 0 ∧
    liveList (parrayInsert true ⟨0, 1, 2, [5, 0]⟩ 0 9).2 = [9, 5] := by
  have H1 := C9_insert_bounds ⟨0, 1, 2, [5, 0]⟩ 1 9 (by decide) (by decide)
  have H0 := C9_insert_bounds ⟨0, 1, 2, [5, 0]⟩ 0 9 (by decide) (by decide)
  exact ⟨by decide, by decide, H1.2.1 true (by decide),
    (H0.2.2.2 (by decide)).1,
    ((H0.2.2.2 (by decide)).2.2).trans (by decide)⟩

/-- C8: out-of-range reads return NULL, pop-like operations on an
empty parray return NULL with the state unchanged, and out-of-range
positional mutations return their failure sentinel with the state
unchanged. -/
theorem C8_oob_failures (p : Parray) (ind : Nat) (e : Val) :
    (p.length ≤ ind → parrayGet p ind = 0) ∧
    (p.length = 0 →
      parrayGetFirst p = 0 ∧ parrayGetLast p = 0 ∧
      parrayPop p = (0, p) ∧ parrayDequeue p = (0, p)) ∧
    (p.length ≤ ind →
      parraySet p ind e = (SIZE_MAX, p) ∧
      parrayRemove p ind = (0, p) ∧ parrayDitch p ind = (0, p)) := by
  refine ⟨fun hge => ?_, fun h0 => ⟨?_, ?_, ?_, ?_⟩, fun hge => ⟨?_, ?_, ?_⟩⟩ <;>
    simp [parrayGet, parrayGetFirst, parrayGetLast, parrayPop, parrayDequeue,
      parraySet, parrayRemove, parrayDitch, *]

/-- Witness for C8 on an empty-but-allocated parray with an
out-of-range index. -/
theorem C8_oob_failures_witness :
    parrayGet ⟨1, 0, 2, [7, 7]⟩ 0 = 0 ∧
    (parrayGetFirst ⟨1, 0, 2, [7, 7]⟩ = 0 ∧ parrayGetLast ⟨1, 0, 2, [7, 7]⟩ = 0 ∧
      parrayPop ⟨1, 0, 2, [7, 7]⟩ = (0, ⟨1, 0, 2, [7, 7]⟩) ∧
      parrayDequeue ⟨1, 0, 2, [7, 7]⟩ = (0, ⟨1, 0, 2, [7, 7]⟩)) ∧
    (parraySet ⟨1, 0, 2, [7, 7]⟩ 0 9 = (SIZE_MAX, ⟨1, 0, 2, [7, 7]⟩) ∧
      parrayRemove ⟨1, 0, 2, [7, 7]⟩ 0 = (0, ⟨1, 0, 2, [7, 7]⟩) ∧
      parrayDitch ⟨1, 0, 2, [7, 7]⟩ 0 = (0, ⟨1, 0, 2, [7, 7]⟩)) := by
  have H := C8_oob_failures ⟨1, 0, 2, [7, 7]⟩ 0 9
  exact ⟨H.1 (by decide), H.2.1 (by decide), H.2.2 (by decide)⟩

/-- C4 counterexample: `parrayCapacity` compacts (`memmove` + `offset
= 0`) before attempting the fallible `realloc`, so on allocation
failure the call returns `-1` but the prior state is not restored: a
parray with `offset = 1` comes back with `offset = 0` (its live bytes
moved as well). -/
theorem C4_capacity_failure_mutates :
    WF ⟨1, 1, 2, [17, 530]⟩ ∧
    (parrayCapacity false ⟨1, 1, 2, [17, 530]⟩ 3).1 = SIZE_MAX ∧
    (parrayCapacity false ⟨1, 1, 2, [17, 530]⟩ 3).2.offset = 0 ∧
    (⟨1, 1, 2, [17, 530]⟩ : Parray).offset = 1 ∧
    (parrayCapacity false ⟨1, 1, 2, [17, 530]⟩ 3).2 ≠ ⟨1, 1, 2, [17, 530]⟩ := by
  decide

/-- C4 (amended): `parrayPush` and `parrayInsert` report allocation
failure with `-1` and leave the parray exactly as it was; for
`parrayCapacity` the same holds only when `offset` was already 0 —
otherwise the offset compaction has already been applied by the time
the `realloc` failure is reported. -/
theorem C4_alloc_failure_state (p : Parray) (e : Val) (ind c : Nat) (h : WF p)
    (hb : p.length < SIZE_MAX) :
    ((parrayPush false p e).1 = SIZE_MAX → (parrayPush false p e).2 = p) ∧
    ((parrayInsert false p ind e).1 = SIZE_MAX → (parrayInsert false p ind e).2 = p) ∧
    ((parrayCapacity false p c).1 = SIZE_MAX → p.offset = 0 →
      (parrayCapacity false p c).2 = p) := by
  obtain ⟨h1, h2⟩ := h
  refine ⟨?_, ?_, ?_⟩
  · by_cases hc : p.capacity = 0
    · intro hmax
      have he : parrayPush false p e = (SIZE_MAX, { p with data := [] }) := by
        simp [parrayPush, hc]
      rw [he]
      have hd : p.data = [] := List.length_eq_zero.mp (by omega)
      show Parray.mk p.offset p.length p.capacity [] = p
      rw [← hd]
    · cases hg : growStep false p with
      | none =>
        simp only [parrayPush, if_neg hc, hg]
        intro _
        trivial
      | some q =>
        obtain ⟨hqd, hqlt, hqlen, hqlive⟩ := growStep_some_spec false p ⟨h1, h2⟩ hc q hg
        simp only [parrayPush, if_neg hc, hg]
        intro hmax
        exfalso
        have : q.length = SIZE_MAX := hmax
        omega
  · by_cases hi : ind ≥ p.length
    · simp only [parrayInsert, if_pos hi]
      intro _
      trivial
    · have hc : p.capacity ≠ 0 := by omega
      cases hg : growStep false p with
      | none =>
        simp only [parrayInsert, if_neg hi, hg]
        intro _
        trivial
      | some q =>
        simp only [parrayInsert, if_neg hi, hg]
        intro hmax
        exfalso
        have : ind = SIZE_MAX := hmax
        omega
  · intro hmax ho0
    have hcc : capCompact p = p := by
      simp [capCompact, ho0]
    simp only [parrayCapacity, hcc]
    split_ifs <;> first | rfl | exact (False.elim (by assumption))

/-- Witness for C4 (amended) at a concrete state: push fails with the
allocator refusing (offset 1 = length 1, buffer full), and the state
comes back unchanged; the capacity clause applies at `offset = 0`. -/
theorem C4_alloc_failure_state_witness :
    WF ⟨1, 1, 2, [17, 530]⟩ ∧ ((⟨1, 1, 2, [17, 530]⟩ : Parray).length < SIZE_MAX) ∧
    ((parrayPush false ⟨1, 1, 2, [17, 530]⟩ 9).1 = SIZE_MAX →
      (parrayPush false ⟨1, 1, 2, [17, 530]⟩ 9).2 = ⟨1, 1, 2, [17, 530]⟩) ∧
    ((parrayCapacity false ⟨0, 1, 2, [5, 0]⟩ 4).1 = SIZE_MAX →
      (⟨0, 1, 2, [5, 0]⟩ : Parray).offset = 0 →
      (parrayCapacity false ⟨0, 1, 2, [5, 0]⟩ 4).2 = ⟨0, 1, 2, [5, 0]⟩) := by
  have H1 := C4_alloc_failure_state ⟨1, 1, 2, [17, 530]⟩ 9 0 0 (by decide) (by decide)
  have H2 := C4_alloc_failure_state ⟨0, 1, 2, [5, 0]⟩ 9 0 4 (by decide) (by decide)
  exact ⟨by decide, by decide, H1.1, H2.2.2⟩

/-- C2: the compaction inside `parrayCapacity` moves `parr->length`
BYTES (the `sizeof` factor is missing, unlike the analogous copies in
push/insert), so a successful call that compacts a nonzero offset
corrupts the live elements: here the single live element 530 becomes
18, even though the call returns the correct capacity and zeroes the
offset. -/
theorem C2_capacity_corrupts_live :
    WF ⟨1, 1, 2, [17, 530]⟩ ∧
    liveList ⟨1, 1, 2, [17, 530]⟩ = [530] ∧
    (parrayCapacity true ⟨1, 1, 2, [17, 530]⟩ 2).1 = 2 ∧
    (parrayCapacity true ⟨1, 1, 2, [17, 530]⟩ 2).2.offset = 0 ∧
    liveList (parrayCapacity true ⟨1, 1, 2, [17, 530]⟩ 2).2 = [18] := by
  decide

/-- C1: `parrayFindIndex` computes
`(res - &data[offset]) / sizeof(data[0])` — but the pointer difference
is already in elements, so the found index is divided by 8 again. On
the sorted parray `[10, 20]` with key 20 (a strictly ascending live
list, matching the comparator), the matching element sits at logical
index 1, yet the function returns 0, whose element does not compare
equal to the key. -/
theorem C1_findIndex_returns_wrong_index :
    (liveList ⟨0, 2, 2, [10, 20]⟩).Pairwise (fun a b => a < b) ∧
    natKeyCmp 20 (parrayGet ⟨0, 2, 2, [10, 20]⟩ 1) = 0 ∧
    natKeyCmp 20 (parrayGet ⟨0, 2, 2, [10, 20]⟩ 0) ≠ 0 ∧
    parrayFindIndex (natKeyCmp 20) ⟨0, 2, 2, [10, 20]⟩ = 0 := by
  decide
